import Mathlib

/-!
Shallow embedding of the `waitloop` package (src/waitloop.go): a keyed,
one-shot event wait/notify dispatcher.  Time is modelled as `Nat`
(absolute instants); Go channels are modelled by natural-number channel
identifiers allocated by a counter in the loop state; a delivery
(a goroutine writing one `Event` to a listener's channel) is recorded in
an output log of `(channel, event)` pairs.  An index access `s[i]` that
is out of range in Go panics and kills the process; the embedding
returns `none` for the resulting state in exactly that case, keeping the
deliveries issued before the panic.
-/

namespace Waitloop

/-- The two sentinel error values of the package:
`ErrLoopTerminated` and `ErrTimedOut` (src/waitloop.go lines 9 and 12). -/
inductive Err where
  | loopTerminated
  | timedOut
deriving DecidableEq

/-- Go struct `Event` (src/waitloop.go line 21): `Key`, `Data` (an opaque
payload, modelled as `Option Nat` with `none` for Go's nil), `Error`
(`none` for Go's nil error). -/
structure Event where
  key : String
  data : Option Nat
  error : Option Err
deriving DecidableEq

/-- Go struct `listener` (src/waitloop.go line 14): `Key`, `Channel`
(modelled by a channel identifier), `Expiration` (absolute instant). -/
structure Listener where
  key : String
  channel : Nat
  expiration : Nat
deriving DecidableEq

/-- The Go map `map[string][]listener`, modelled as an association list
(iterated in list order where Go iterates in unspecified order). -/
abbrev LMap := List (String × List Listener)

/-- One delivery: an event written to a listener channel. -/
abbrev Delivery := Nat × Event

/-- The synthetic event `Event\x7bKey: k, Error: ErrLoopTerminated\x7d`. -/
def termEv (k : String) : Event := ⟨k, none, some Err.loopTerminated⟩

/-- The synthetic event `Event\x7bKey: k, Error: ErrTimedOut\x7d`. -/
def timeoutEv (k : String) : Event := ⟨k, none, some Err.timedOut⟩

/-- Map lookup, `l.listenerMap[key]` (first matching entry). -/
def lookup : LMap → String → Option (List Listener)
  | [], _ => none
  | (k, s) :: rest, key => if k = key then some s else lookup rest key

/-- Map deletion, `delete(l.listenerMap, key)`. -/
def eraseKey : LMap → String → LMap
  | [], _ => []
  | (k, s) :: rest, key =>
    if k = key then eraseKey rest key else (k, s) :: eraseKey rest key

/-- `Loop.registerListener` (src/waitloop.go lines 147-153): append the
listener to its key's slice, creating the slice if the key is absent. -/
def registerListener : LMap → Listener → LMap
  | [], lis => [(lis.key, [lis])]
  | (k, s) :: rest, lis =>
    if k = lis.key then (k, s ++ [lis]) :: rest
    else (k, s) :: registerListener rest lis

/-- `Loop.processEvent` (src/waitloop.go lines 155-171): look up the
event's key; if absent do nothing; otherwise delete the whole entry and
deliver `e` to every listener whose expiration is not strictly before
`now` (`w.Expiration.Before(time.Now())` skips the listener). -/
def processEvent (m : LMap) (now : Nat) (e : Event) : LMap × List Delivery :=
  match lookup m e.key with
  | none => (m, [])
  | some waiters =>
    (eraseKey m e.key,
      (waiters.filter fun w => ! decide (w.expiration < now)).map
        fun w => (w.channel, e))

/-- The inner loop of `Loop.cleanup` (src/waitloop.go lines 175-185) on
one key's slice.  Go's `for i := range l.listenerMap[k]` fixes the
iteration count to the slice's initial length (`fuel`), re-reads the
slice at each step, skips the listener when `time.Now().Before(exp)`,
and otherwise delivers a timeout event and removes index `i`
(`append(s[:i], s[i+1:]...)`, i.e. `eraseIdx`).  An access past the end
of the shrunken slice is Go's index-out-of-range panic: `none`. -/
def cleanupKey (k : String) (now : Nat) :
    List Listener → Nat → Nat → Option (List Listener) × List Delivery
  | s, _, 0 => (some s, [])
  | s, i, fuel + 1 =>
    match s[i]? with
    | none => (none, [])
    | some w =>
      if now < w.expiration then
        cleanupKey k now s (i + 1) fuel
      else
        let r := cleanupKey k now (s.eraseIdx i) (i + 1) fuel
        (r.1, (w.channel, timeoutEv k) :: r.2)

/-- `Loop.cleanup` (src/waitloop.go lines 173-191): run the inner loop
on every key's slice, deleting keys whose slice ends empty.  A panic in
one key's loop kills the whole sweep, keeping earlier deliveries. -/
def cleanup (now : Nat) : LMap → Option LMap × List Delivery
  | [] => (some [], [])
  | (k, s) :: rest =>
    match cleanupKey k now s 0 s.length with
    | (none, out) => (none, out)
    | (some s', out1) =>
      match cleanup now rest with
      | (none, out2) => (none, out1 ++ out2)
      | (some m', out2) =>
        (some (if s'.isEmpty then m' else (k, s') :: m'), out1 ++ out2)

/-- The inner loop of `Loop.terminate` (src/waitloop.go lines 195-201)
on one key's slice: iterate the initial length, deliver a termination
event to `s[i]`, then set the slice to
`append(s[:i], s[:i+1]...)` — that is `s.take i ++ s.take (i+1)`,
exactly as the source is written (`[:i+1]`, not `[i+1:]`). -/
def terminateKey (k : String) :
    List Listener → Nat → Nat → Option (List Listener) × List Delivery
  | s, _, 0 => (some s, [])
  | s, i, fuel + 1 =>
    match s[i]? with
    | none => (none, [])
    | some w =>
      let r := terminateKey k (s.take i ++ s.take (i + 1)) (i + 1) fuel
      (r.1, (w.channel, termEv k) :: r.2)

/-- `Loop.terminate` (src/waitloop.go lines 193-206): run the inner
flush loop on every key, deleting keys whose slice ends empty. -/
def terminate : LMap → Option LMap × List Delivery
  | [] => (some [], [])
  | (k, s) :: rest =>
    match terminateKey k s 0 s.length with
    | (none, out) => (none, out)
    | (some s', out1) =>
      match terminate rest with
      | (none, out2) => (none, out1 ++ out2)
      | (some m', out2) =>
        (some (if s'.isEmpty then m' else (k, s') :: m'), out1 ++ out2)

/-- The dispatcher state of `Loop` (src/waitloop.go lines 28-36):
`listenerMap`, `terminated`, `defaultTTL`, plus the two inbound buffered
channels modelled as queues, and the fresh-channel allocator (a model
artifact standing for Go's heap allocation of channels). -/
structure LoopState where
  listenerMap : LMap
  terminated : Bool
  defaultTTL : Nat
  regQueue : List Listener
  eventQueue : List Event
  nextChan : Nat
deriving DecidableEq

/-- One interaction with the loop: a caller operation (`WaitTTL`,
`Send`, `Terminate`-signal handled by `run`) or one iteration of the
`run` goroutine's select (register a queued listener, process a queued
event, or a sweep tick at instant `now`). -/
inductive Action where
  | wait (key : String) (ttl : Nat) (now : Nat)
  | send (e : Event)
  | register
  | dispatch (now : Nat)
  | sweep (now : Nat)
  | terminate

/-- One step of the system.  Returns the next state (`none` when an
index-out-of-range panic killed the process) and the deliveries issued.
`wait` mirrors `Loop.WaitTTL` (src/waitloop.go lines 101-116): the new
listener's expiration is `now + defaultTTL` — the source sets
`Expiration: time.Now().Add(l.defaultTTL)`, leaving the `ttl` argument
unused.  On a terminated loop the fresh channel immediately receives a
termination event; otherwise the listener is queued.  `send` mirrors
`Loop.Send` (lines 119-124): a no-op when terminated.  The dispatcher
actions mirror the select in `Loop.run` (lines 131-145) and are no-ops
once the loop has exited (`terminated`). -/
def step (s : LoopState) (a : Action) : Option LoopState × List Delivery :=
  match a with
  | .wait key _ttl now =>
    if s.terminated then
      (some ⟨s.listenerMap, s.terminated, s.defaultTTL, s.regQueue,
        s.eventQueue, s.nextChan + 1⟩,
        [(s.nextChan, termEv key)])
    else
      (some ⟨s.listenerMap, s.terminated, s.defaultTTL,
        s.regQueue ++ [⟨key, s.nextChan, now + s.defaultTTL⟩],
        s.eventQueue, s.nextChan + 1⟩, [])
  | .send e =>
    if s.terminated then (some s, [])
    else
      (some ⟨s.listenerMap, s.terminated, s.defaultTTL, s.regQueue,
        s.eventQueue ++ [e], s.nextChan⟩, [])
  | .register =>
    if s.terminated then (some s, [])
    else
      match s.regQueue with
      | [] => (some s, [])
      | lis :: rest =>
        (some ⟨registerListener s.listenerMap lis, s.terminated,
          s.defaultTTL, rest, s.eventQueue, s.nextChan⟩, [])
  | .dispatch now =>
    if s.terminated then (some s, [])
    else
      match s.eventQueue with
      | [] => (some s, [])
      | e :: rest =>
        (some ⟨(processEvent s.listenerMap now e).1, s.terminated,
          s.defaultTTL, s.regQueue, rest, s.nextChan⟩,
          (processEvent s.listenerMap now e).2)
  | .sweep now =>
    if s.terminated then (some s, [])
    else
      match cleanup now s.listenerMap with
      | (none, out) => (none, out)
      | (some m', out) =>
        (some ⟨m', s.terminated, s.defaultTTL, s.regQueue, s.eventQueue,
          s.nextChan⟩, out)
  | .terminate =>
    if s.terminated then (some s, [])
    else
      match terminate s.listenerMap with
      | (none, out) => (none, out)
      | (some m', out) =>
        (some ⟨m', true, s.defaultTTL, s.regQueue, s.eventQueue,
          s.nextChan⟩, out)

/-- Run a list of actions from a state, concatenating the delivery log.
After a panic (`none`) the process is dead: remaining actions are
dropped, deliveries issued before the panic are kept. -/
def run : LoopState → List Action → Option LoopState × List Delivery
  | s, [] => (some s, [])
  | s, a :: rest =>
    match step s a with
    | (none, out) => (none, out)
    | (some s', out) =>
      let r := run s' rest
      (r.1, out ++ r.2)

/-- The state of a freshly constructed loop (`NewCustom`,
src/waitloop.go lines 79-87): empty map, not terminated, empty queues. -/
def initState (ttl : Nat) : LoopState := ⟨[], false, ttl, [], [], 0⟩

/-! ## Helper lemmas on the map operations -/

theorem lookup_eraseKey_self : ∀ (m : LMap) (key : String),
    lookup (eraseKey m key) key = none
  | [], _ => rfl
  | (k₀, s) :: rest, key => by
    by_cases hk : k₀ = key
    · simp only [eraseKey, if_pos hk]
      exact lookup_eraseKey_self rest key
    · simp only [eraseKey, if_neg hk, lookup, if_neg hk]
      exact lookup_eraseKey_self rest key

theorem lookup_eraseKey_ne : ∀ (m : LMap) {k key : String}, k ≠ key →
    lookup (eraseKey m key) k = lookup m k
  | [], _, _, _ => rfl
  | (k₀, s) :: rest, k, key, h => by
    by_cases hk : k₀ = key
    · have hne : ¬ k₀ = k := fun hh => h (hh ▸ hk)
      simp only [eraseKey, if_pos hk, lookup, if_neg hne]
      exact lookup_eraseKey_ne rest h
    · simp only [eraseKey, if_neg hk, lookup]
      by_cases hk' : k₀ = k
      · simp [hk']
      · simp only [if_neg hk']
        exact lookup_eraseKey_ne rest h

theorem lookup_registerListener_self : ∀ (m : LMap) (lis : Listener),
    lookup (registerListener m lis) lis.key =
      some ((lookup m lis.key).getD [] ++ [lis])
  | [], lis => by simp [registerListener, lookup]
  | (k₀, s) :: rest, lis => by
    by_cases hk : k₀ = lis.key
    · simp [registerListener, if_pos hk, lookup, hk]
    · simp only [registerListener, if_neg hk, lookup, if_neg hk]
      exact lookup_registerListener_self rest lis

/-! ## Claim theorems: concrete evaluations of the buggy paths -/

/-- Claim C1.  The termination flush does not behave as claimed: on a
map holding one key with a single pending listener it delivers the
termination event but leaves the key and the listener in the mapping
(src/waitloop.go line 200 appends `[:i+1]` where clearing would need
`[i+1:]`), and on a key with two pending listeners it delivers only to
the first and then hits an index-out-of-range panic (`none`), so the
second listener never receives a termination event and the mapping is
not cleared. -/
theorem terminate_flush_keeps_map_and_panics :
    terminate [("k", [⟨"k", 0, 5⟩])] =
      (some [("k", [⟨"k", 0, 5⟩])], [(0, termEv "k")]) ∧
    terminate [("k", [⟨"k", 0, 5⟩, ⟨"k", 1, 5⟩])] =
      (none, [(0, termEv "k")]) := by
  constructor <;> rfl

/-- Claim C2.  `WaitTTL` ignores its `ttl` argument: the listener
registered by `wait("bob", ttl = 1)` on a loop whose default TTL is
3600 gets expiration `0 + 3600` (registration time plus the default
TTL), not `0 + 1` as the claim states (src/waitloop.go line 104 adds
`l.defaultTTL` instead of `ttl`). -/
theorem waitTTL_ignores_ttl :
    step (initState 3600) (Action.wait "bob" 1 0) =
      (some ⟨[], false, 3600, [⟨"bob", 0, 3600⟩], [], 1⟩, []) ∧
    (3600 : Nat) ≠ 0 + 1 := by
  constructor
  · rfl
  · decide

/-- Claim C3.  The sweep does not behave as claimed: on a key holding
two expired listeners (expirations 1 and 2, swept at instant 10) it
delivers a timeout to the first, removes it, and then the
remove-while-iterating loop reads index 1 of the now one-element slice:
an index-out-of-range panic (`none`).  The second expired listener is
neither removed nor notified. -/
theorem cleanup_two_expired_panics :
    cleanup 10 [("k", [⟨"k", 0, 1⟩, ⟨"k", 1, 2⟩])] =
      (none, [(0, timeoutEv "k")]) := by
  rfl

/-- Claim C4, counterexample.  The sweep's remove-while-iterating loop
does go out of range: on a key holding an expired listener followed by
an unexpired one, removing the first shrinks the slice to length one and
the next iteration reads index 1 — the panic the claim says cannot
happen (`none` encodes exactly the out-of-range access). -/
theorem cleanup_out_of_range_counterexample :
    (cleanup 10 [("k", [⟨"k", 0, 1⟩, ⟨"k", 1, 100⟩])]).1 = none := by
  rfl

/-- Claim C5, counterexample.  A step that delivers to a listener does
not always remove it from the mapping: after `wait`, `register`,
`terminate`, the termination flush has written to channel 0 (the log
holds the termination event for channel 0) yet the listener with
channel 0 is still present under key `"k"` in the final mapping. -/
theorem terminate_delivers_without_removing :
    run (initState 100) [Action.wait "k" 7 0, Action.register,
        Action.terminate] =
      (some ⟨[("k", [⟨"k", 0, 100⟩])], true, 100, [], [], 1⟩,
        [(0, termEv "k")]) := by
  rfl

/-! ## Per-operation specification theorems -/

/-- Claim C6.  On a terminated loop, `wait` returns a fresh endpoint
immediately satisfied with a termination-error event and registers no
listener (map and queues untouched, only the channel allocator moves),
and `send` is a complete no-op: the state is unchanged and nothing is
delivered. -/
theorem post_termination_wait_send (s : LoopState) (h : s.terminated = true)
    (key : String) (ttl now : Nat) (e : Event) :
    step s (Action.wait key ttl now) =
      (some ⟨s.listenerMap, s.terminated, s.defaultTTL, s.regQueue,
        s.eventQueue, s.nextChan + 1⟩,
        [(s.nextChan, termEv key)]) ∧
    step s (Action.send e) = (some s, []) := by
  constructor <;> simp [step, h]

theorem post_termination_wait_send_witness :
    step ⟨[], true, 5, [], [], 0⟩ (Action.wait "a" 1 0) =
      (some ⟨[], true, 5, [], [], 1⟩, [(0, termEv "a")]) ∧
    step ⟨[], true, 5, [], [], 0⟩ (Action.send ⟨"a", none, none⟩) =
      (some ⟨[], true, 5, [], [], 0⟩, []) :=
  post_termination_wait_send ⟨[], true, 5, [], [], 0⟩ rfl "a" 1 0
    ⟨"a", none, none⟩

theorem count_filter_delivery (e : Event) (now : Nat) :
    ∀ (ws : List Listener), (ws.map Listener.channel).Nodup →
    ∀ w ∈ ws, ¬ w.expiration < now →
    ((ws.filter fun x => ! decide (x.expiration < now)).map
      fun x => (x.channel, e)).count (w.channel, e) = 1
  | [], _, w, hw, _ => absurd hw (List.not_mem_nil w)
  | a :: t, hnd, w, hw, hexp => by
    simp only [List.map_cons, List.nodup_cons, List.mem_map] at hnd
    rcases List.mem_cons.mp hw with rfl | hwt
    · rw [List.filter_cons_of_pos (by simpa using hexp)]
      simp only [List.map_cons, List.count_cons_self]
      have hz : (w.channel, e) ∉
          (t.filter fun x => ! decide (x.expiration < now)).map
            fun x => (x.channel, e) := by
        intro hmem
        rcases List.mem_map.mp hmem with ⟨x, hx, hxe⟩
        exact hnd.1 ⟨x, List.mem_of_mem_filter hx, (Prod.ext_iff.mp hxe).1⟩
      rw [List.count_eq_zero_of_not_mem hz]
    · have hne : a.channel ≠ w.channel := by
        intro hc
        exact hnd.1 ⟨w, hwt, hc.symm⟩
      by_cases ha : a.expiration < now
      · rw [List.filter_cons_of_neg (by simpa using ha)]
        exact count_filter_delivery e now t hnd.2 w hwt hexp
      · rw [List.filter_cons_of_pos (by simpa using ha)]
        simp only [List.map_cons]
        rw [List.count_cons_of_ne (by simp [Prod.ext_iff, Ne, hne.symm])]
        exact count_filter_delivery e now t hnd.2 w hwt hexp

/-- Claim C7.  Processing an event removes the full listener sequence of
its key in one step (the key no longer resolves), delivers the event
itself — same key, data and error — exactly once to every listener of
that sequence whose expiration has not passed, silently skips every
already-expired listener, and every delivery issued carries that same
event. -/
theorem processEvent_delivers (m : LMap) (now : Nat) (e : Event)
    (ws : List Listener) (hl : lookup m e.key = some ws)
    (hnd : (ws.map Listener.channel).Nodup) :
    lookup (processEvent m now e).1 e.key = none ∧
    (∀ w ∈ ws, ¬ w.expiration < now →
      ((processEvent m now e).2).count (w.channel, e) = 1) ∧
    (∀ w ∈ ws, w.expiration < now →
      ∀ ev, (w.channel, ev) ∉ (processEvent m now e).2) ∧
    (∀ p ∈ (processEvent m now e).2, p.2 = e) := by
  refine ⟨?_, ?_, ?_, ?_⟩
  · simp only [processEvent, hl]
    exact lookup_eraseKey_self m e.key
  · intro w hw hexp
    simp only [processEvent, hl]
    exact count_filter_delivery e now ws hnd w hw hexp
  · intro w hw hexp ev hmem
    simp only [processEvent, hl] at hmem
    rcases List.mem_map.mp hmem with ⟨x, hx, hxe⟩
    have hxw : x = w :=
      List.inj_on_of_nodup_map hnd (List.mem_of_mem_filter hx) hw
        (congrArg Prod.fst hxe)
    have := List.of_mem_filter hx
    rw [hxw] at this
    simp [hexp] at this
  · intro p hp
    simp only [processEvent, hl] at hp
    rcases List.mem_map.mp hp with ⟨x, _, hxe⟩
    exact (congrArg Prod.snd hxe).symm ▸ rfl

theorem processEvent_delivers_witness :
    lookup (processEvent [("k", [⟨"k", 0, 5⟩, ⟨"k", 1, 2⟩])] 3
      ⟨"k", some 7, none⟩).1 "k" = none ∧
    (∀ w ∈ [(⟨"k", 0, 5⟩ : Listener), ⟨"k", 1, 2⟩], ¬ w.expiration < 3 →
      ((processEvent [("k", [⟨"k", 0, 5⟩, ⟨"k", 1, 2⟩])] 3
        ⟨"k", some 7, none⟩).2).count (w.channel, ⟨"k", some 7, none⟩) = 1) ∧
    (∀ w ∈ [(⟨"k", 0, 5⟩ : Listener), ⟨"k", 1, 2⟩], w.expiration < 3 →
      ∀ ev, (w.channel, ev) ∉ (processEvent [("k", [⟨"k", 0, 5⟩, ⟨"k", 1, 2⟩])] 3
        ⟨"k", some 7, none⟩).2) ∧
    (∀ p ∈ (processEvent [("k", [⟨"k", 0, 5⟩, ⟨"k", 1, 2⟩])] 3
      ⟨"k", some 7, none⟩).2, p.2 = ⟨"k", some 7, none⟩) :=
  processEvent_delivers [("k", [⟨"k", 0, 5⟩, ⟨"k", 1, 2⟩])] 3
    ⟨"k", some 7, none⟩ [⟨"k", 0, 5⟩, ⟨"k", 1, 2⟩] rfl (by decide)

/-- Claim C8.  Key isolation: processing an event leaves every other
key's entry in the mapping exactly as it was, and every delivery it
issues goes to the channel of a listener stored under the event's own
key. -/
theorem processEvent_key_isolation (m : LMap) (now : Nat) (e : Event)
    (k' : String) (h : k' ≠ e.key) :
    lookup (processEvent m now e).1 k' = lookup m k' ∧
    ∀ p ∈ (processEvent m now e).2, ∃ ws w, lookup m e.key = some ws ∧
      w ∈ ws ∧ p.1 = w.channel ∧ p.2 = e := by
  cases hl : lookup m e.key with
  | none =>
    refine ⟨by simp [processEvent, hl], ?_⟩
    intro p hp
    simp [processEvent, hl] at hp
  | some ws =>
    refine ⟨?_, ?_⟩
    · simp only [processEvent, hl]
      exact lookup_eraseKey_ne m h
    · intro p hp
      simp only [processEvent, hl] at hp
      rcases List.mem_map.mp hp with ⟨x, hx, hxe⟩
      exact ⟨ws, x, rfl, List.mem_of_mem_filter hx,
        (congrArg Prod.fst hxe).symm, (congrArg Prod.snd hxe).symm⟩

theorem processEvent_key_isolation_witness :
    lookup (processEvent [("a", [⟨"a", 0, 5⟩]), ("b", [⟨"b", 1, 5⟩])] 2
      ⟨"a", some 9, none⟩).1 "b" =
      lookup [("a", [⟨"a", 0, 5⟩]), ("b", [⟨"b", 1, 5⟩])] "b" ∧
    ∀ p ∈ (processEvent [("a", [⟨"a", 0, 5⟩]), ("b", [⟨"b", 1, 5⟩])] 2
      ⟨"a", some 9, none⟩).2,
      ∃ ws w, lookup [("a", [⟨"a", 0, 5⟩]), ("b", [⟨"b", 1, 5⟩])] "a" = some ws ∧
        w ∈ ws ∧ p.1 = w.channel ∧ p.2 = ⟨"a", some 9, none⟩ :=
  processEvent_key_isolation [("a", [⟨"a", 0, 5⟩]), ("b", [⟨"b", 1, 5⟩])] 2
    ⟨"a", some 9, none⟩ "b" (by decide)

/-- Claim C9.  Registration appends the new listener at the end of its
key's sequence, and the deliveries issued when an event is processed
follow the sequence's (registration) order: the delivered channels form
a sublist of the registered channel order. -/
theorem register_appends_and_fifo (m : LMap) (lis : Listener) (now : Nat)
    (e : Event) (ws : List Listener) (hl : lookup m e.key = some ws) :
    lookup (registerListener m lis) lis.key =
      some ((lookup m lis.key).getD [] ++ [lis]) ∧
    List.Sublist (((processEvent m now e).2).map Prod.fst)
      (ws.map Listener.channel) := by
  refine ⟨lookup_registerListener_self m lis, ?_⟩
  simp only [processEvent, hl, List.map_map]
  exact List.Sublist.map _ (List.filter_sublist ws)

theorem register_appends_and_fifo_witness :
    lookup (registerListener [("k", [⟨"k", 0, 9⟩])] ⟨"k", 1, 9⟩) "k" =
      some ((lookup [("k", [⟨"k", 0, 9⟩])] "k").getD [] ++ [⟨"k", 1, 9⟩]) ∧
    List.Sublist
      (((processEvent [("k", [⟨"k", 0, 9⟩])] 2 ⟨"k", none, none⟩).2).map Prod.fst)
      ([(⟨"k", 0, 9⟩ : Listener)].map Listener.channel) :=
  register_appends_and_fifo [("k", [⟨"k", 0, 9⟩])] ⟨"k", 1, 9⟩ 2
    ⟨"k", none, none⟩ [⟨"k", 0, 9⟩] rfl

/-- Claim C10.  Processing an event whose key has no entry in the
mapping is a complete no-op: the mapping is returned unchanged and no
delivery is issued; the event is not retained anywhere. -/
theorem processEvent_no_listeners_noop (m : LMap) (now : Nat) (e : Event)
    (h : lookup m e.key = none) : processEvent m now e = (m, []) := by
  simp [processEvent, h]

theorem processEvent_no_listeners_noop_witness :
    processEvent [("a", [⟨"a", 0, 5⟩])] 3 ⟨"b", some 1, none⟩ =
      ([("a", [⟨"a", 0, 5⟩])], []) :=
  processEvent_no_listeners_noop [("a", [⟨"a", 0, 5⟩])] 3 ⟨"b", some 1, none⟩ rfl

/-! ## Restricted in-bounds conditions for the iterate-and-remove loops -/

theorem cleanupKey_no_expired (k : String) (now : Nat) :
    ∀ (fuel : Nat) (s : List Listener) (i : Nat), i + fuel ≤ s.length →
    (∀ w ∈ s, now < w.expiration) →
    cleanupKey k now s i fuel = (some s, [])
  | 0, _, _, _, _ => rfl
  | fuel + 1, s, i, hlen, hall => by
    have hi : i < s.length := by omega
    have hget : s[i]? = some s[i] := List.getElem?_eq_getElem hi
    simp only [cleanupKey, hget]
    rw [if_pos (hall _ (List.getElem?_mem hget))]
    exact cleanupKey_no_expired k now fuel s (i + 1) (by omega) hall

theorem cleanup_no_expired (now : Nat) : ∀ (m : LMap),
    (∀ p ∈ m, ∀ w ∈ p.2, now < w.expiration) →
    (cleanup now m).1.isSome = true
  | [], _ => rfl
  | (k, s) :: rest, hall => by
    have h1 : cleanupKey k now s 0 s.length = (some s, []) :=
      cleanupKey_no_expired k now s.length s 0 (by omega)
        (hall (k, s) (List.mem_cons_self _ _))
    have h2 := cleanup_no_expired now rest
      (fun p hp => hall p (List.mem_cons_of_mem _ hp))
    simp only [cleanup, h1]
    cases hc : cleanup now rest with
    | mk r out2 =>
      cases r with
      | none => rw [hc] at h2; simp at h2
      | some m' => simp

theorem terminateKey_two (k : String) (a b : Listener) (t : List Listener) :
    terminateKey k (a :: b :: t) 0 (a :: b :: t).length =
      (none, [(a.channel, termEv k)]) := rfl

theorem terminate_single_per_key : ∀ (m : LMap),
    (∀ p ∈ m, p.2.length ≤ 1) → (terminate m).1.isSome = true
  | [], _ => rfl
  | (k, s) :: rest, hall => by
    have hrest := terminate_single_per_key rest
      (fun p hp => hall p (List.mem_cons_of_mem _ hp))
    have hs : s.length ≤ 1 := hall (k, s) (List.mem_cons_self _ _)
    match s, hs with
    | [], _ =>
      simp only [terminate]
      cases hc : terminate rest with
      | mk r out2 =>
        cases r with
        | none => rw [hc] at hrest; simp at hrest
        | some m' => simp [terminateKey]
    | [a], _ =>
      simp only [terminate]
      cases hc : terminate rest with
      | mk r out2 =>
        cases r with
        | none => rw [hc] at hrest; simp at hrest
        | some m' => simp [terminateKey]
    | a :: b :: t, hs => simp at hs

/-- Claim C4, amended.  The remove-while-iterating loops are in bounds
only on restricted states (in general they go out of range, see the
counterexample): the sweep performs no out-of-range access when no
listener in the mapping has expired, and the termination flush performs
no out-of-range access when every key holds at most one listener
(`isSome` states that no index-out-of-range panic occurred). -/
theorem inbounds_under_restrictions (m : LMap) (now : Nat) :
    ((∀ p ∈ m, ∀ w ∈ p.2, now < w.expiration) →
      (cleanup now m).1.isSome = true) ∧
    ((∀ p ∈ m, p.2.length ≤ 1) → (terminate m).1.isSome = true) :=
  ⟨cleanup_no_expired now m, terminate_single_per_key m⟩

theorem inbounds_under_restrictions_witness :
    (cleanup 2 [("k", [⟨"k", 0, 5⟩])]).1.isSome = true ∧
    (terminate [("k", [⟨"k", 0, 5⟩])]).1.isSome = true :=
  ⟨(inbounds_under_restrictions [("k", [⟨"k", 0, 5⟩])] 2).1 (by decide),
    (inbounds_under_restrictions [("k", [⟨"k", 0, 5⟩])] 2).2 (by decide)⟩

/-! ## Channel accounting for the at-most-once-delivery invariant -/

/-- The channels of a listener slice. -/
def chansL (s : List Listener) : List Nat := s.map Listener.channel

/-- The channels of all listeners stored in the mapping. -/
def chansM : LMap → List Nat
  | [] => []
  | (_, s) :: rest => chansL s ++ chansM rest

/-- The channels of a possibly-panicked per-key result. -/
def optChansL : Option (List Listener) → List Nat
  | none => []
  | some s => chansL s

/-- The channels of a possibly-panicked map result. -/
def optChansM : Option LMap → List Nat
  | none => []
  | some m => chansM m

/-- The channels written by a delivery log. -/
def outChans (out : List Delivery) : List Nat := out.map Prod.fst

/-- Every channel the dispatcher still owes a delivery to: listeners in
the mapping plus listeners queued for registration. -/
def allChans (s : LoopState) : List Nat :=
  chansM s.listenerMap ++ chansL s.regQueue

theorem outChans_append (a b : List Delivery) :
    outChans (a ++ b) = outChans a ++ outChans b := List.map_append ..

theorem subperm_append {α : Type} {l₁ l₂ r₁ r₂ : List α}
    (h₁ : List.Subperm l₁ l₂) (h₂ : List.Subperm r₁ r₂) :
    List.Subperm (l₁ ++ r₁) (l₂ ++ r₂) := by
  rcases h₁ with ⟨u₁, hp₁, hs₁⟩
  rcases h₂ with ⟨u₂, hp₂, hs₂⟩
  exact ⟨u₁ ++ u₂, hp₁.append hp₂, hs₁.append hs₂⟩

theorem subperm_nodup {α : Type} {l₁ l₂ : List α} (h : List.Subperm l₁ l₂)
    (hn : l₂.Nodup) : l₁.Nodup := by
  rcases h with ⟨u, hp, hs⟩
  exact (List.Nodup.sublist hs hn).perm hp

theorem perm_cons_eraseIdx {α : Type} : ∀ (l : List α) (i : Nat) (a : α),
    l[i]? = some a → List.Perm (a :: l.eraseIdx i) l
  | [], i, a, h => by simp at h
  | x :: t, 0, a, h => by
    simp only [List.getElem?_cons_zero, Option.some.injEq] at h
    subst h
    simp [List.eraseIdx_cons_zero]
  | x :: t, i + 1, a, h => by
    simp only [List.getElem?_cons_succ] at h
    have ih := perm_cons_eraseIdx t i a h
    simp only [List.eraseIdx_cons_succ]
    exact (List.Perm.swap x a _).trans (ih.cons x)

theorem chansL_eraseIdx : ∀ (s : List Listener) (i : Nat),
    chansL (s.eraseIdx i) = (chansL s).eraseIdx i
  | [], _ => rfl
  | _ :: _, 0 => rfl
  | x :: t, i + 1 => by
    simp only [List.eraseIdx_cons_succ, chansL, List.map_cons]
    exact congrArg _ (chansL_eraseIdx t i)

/-- The four-block shuffle used to combine per-key accounting: swapping
the two middle blocks of a four-block concatenation is a permutation. -/
theorem perm_shuffle {α : Type} (u v w z : List α) :
    List.Perm ((u ++ v) ++ (w ++ z)) ((u ++ w) ++ (v ++ z)) := by
  have h1 : (u ++ v) ++ (w ++ z) = u ++ ((v ++ w) ++ z) := by
    simp [List.append_assoc]
  have h2 : (u ++ w) ++ (v ++ z) = u ++ ((w ++ v) ++ z) := by
    simp [List.append_assoc]
  rw [h1, h2]
  exact List.Perm.append_left u ((List.perm_append_comm).append_right z)

theorem chansM_eraseKey_sublist : ∀ (m : LMap) (key : String),
    List.Sublist (chansM (eraseKey m key)) (chansM m)
  | [], _ => List.Sublist.refl _
  | (k, s) :: rest, key => by
    by_cases hk : k = key
    · simp only [eraseKey, if_pos hk, chansM]
      exact (chansM_eraseKey_sublist rest key).trans
        (List.sublist_append_right _ _)
    · simp only [eraseKey, if_neg hk, chansM]
      exact (chansM_eraseKey_sublist rest key).append_left _

theorem lookup_eraseKey_subperm : ∀ (m : LMap) {key : String}
    {ws : List Listener}, lookup m key = some ws →
    List.Subperm (chansL ws ++ chansM (eraseKey m key)) (chansM m)
  | [], _, _, h => by simp [lookup] at h
  | (k, s) :: rest, key, ws, h => by
    by_cases hk : k = key
    · rw [lookup, if_pos hk] at h
      injection h with h
      subst h
      simp only [eraseKey, if_pos hk, chansM]
      exact subperm_append (List.Subperm.refl _)
        (chansM_eraseKey_sublist rest key).subperm
    · rw [lookup, if_neg hk] at h
      simp only [eraseKey, if_neg hk, chansM]
      refine List.Subperm.trans (List.Perm.subperm ?_)
        (subperm_append (List.Subperm.refl (chansL s))
          (lookup_eraseKey_subperm rest h))
      rw [← List.append_assoc, ← List.append_assoc]
      exact (List.perm_append_comm).append_right _

theorem chansM_registerListener : ∀ (m : LMap) (lis : Listener),
    List.Perm (chansM (registerListener m lis)) (chansM m ++ [lis.channel])
  | [], lis => by simp [registerListener, chansM, chansL]
  | (k, s) :: rest, lis => by
    by_cases hk : k = lis.key
    · simp only [registerListener, if_pos hk, chansM, chansL,
        List.map_append, List.map_cons, List.map_nil]
      rw [List.append_assoc, List.singleton_append]
      exact List.Perm.trans List.perm_middle
        ((List.perm_append_singleton ..).symm)
    · simp only [registerListener, if_neg hk, chansM]
      refine List.Perm.trans (List.Perm.append_left (chansL s)
        (chansM_registerListener rest lis)) ?_
      rw [← List.append_assoc]

theorem processEvent_subperm (m : LMap) (now : Nat) (e : Event) :
    List.Subperm
      (outChans (processEvent m now e).2 ++ chansM (processEvent m now e).1)
      (chansM m) := by
  cases hl : lookup m e.key with
  | none =>
    simp only [processEvent, hl, outChans, List.map_nil, List.nil_append]
    exact List.Subperm.refl _
  | some ws =>
    simp only [processEvent, hl]
    refine List.Subperm.trans (List.Sublist.subperm ?_)
      (lookup_eraseKey_subperm m hl)
    refine List.Sublist.append ?_ (List.Sublist.refl _)
    simp only [outChans, List.map_map, chansL]
    exact List.Sublist.map _ (List.filter_sublist ws)

theorem cleanupKey_subperm (k : String) (now : Nat) :
    ∀ (fuel : Nat) (s : List Listener) (i : Nat),
    List.Subperm
      (outChans (cleanupKey k now s i fuel).2 ++
        optChansL (cleanupKey k now s i fuel).1)
      (chansL s)
  | 0, s, i => by
    simp only [cleanupKey, outChans, List.map_nil, optChansL, List.nil_append]
    exact List.Subperm.refl _
  | fuel + 1, s, i => by
    cases hg : s[i]? with
    | none => simp [cleanupKey, hg, outChans, optChansL]
    | some w =>
      by_cases hexp : now < w.expiration
      · simp only [cleanupKey, hg, if_pos hexp]
        exact cleanupKey_subperm k now fuel s (i + 1)
      · simp only [cleanupKey, hg, if_neg hexp, outChans, List.map_cons,
          List.cons_append]
        have ih := cleanupKey_subperm k now fuel (s.eraseIdx i) (i + 1)
        have hperm : List.Perm (w.channel :: chansL (s.eraseIdx i)) (chansL s) := by
          rw [chansL_eraseIdx]
          refine perm_cons_eraseIdx (chansL s) i w.channel ?_
          simp [chansL, hg]
        exact List.Subperm.trans ((List.subperm_cons w.channel).mpr ih)
          hperm.subperm

theorem cleanup_subperm (now : Nat) : ∀ (m : LMap),
    List.Subperm
      (outChans (cleanup now m).2 ++ optChansM (cleanup now m).1)
      (chansM m)
  | [] => by simp [cleanup, outChans, optChansM, chansM]
  | (k, s) :: rest => by
    have hk := cleanupKey_subperm k now s.length s 0
    have hrest := cleanup_subperm now rest
    simp only [cleanup]
    cases h1 : cleanupKey k now s 0 s.length with
    | mk r1 out1 =>
      rw [h1] at hk
      cases r1 with
      | none =>
        simp only [optChansM, optChansL, List.append_nil] at hk ⊢
        exact hk.trans (List.sublist_append_left (chansL s) (chansM rest)).subperm
      | some s' =>
        simp only [optChansL] at hk
        cases h2 : cleanup now rest with
        | mk r2 out2 =>
          rw [h2] at hrest
          cases r2 with
          | none =>
            simp only [optChansM, List.append_nil] at hrest ⊢
            have h1' : List.Subperm (outChans out1) (chansL s) :=
              (List.sublist_append_left (outChans out1) (chansL s')).subperm.trans hk
            rw [outChans_append]
            exact subperm_append h1' hrest
          | some m' =>
            simp only [optChansM, chansM] at hrest ⊢
            have hres : List.Subperm
                ((outChans out1 ++ outChans out2) ++
                  (chansL s' ++ chansM m'))
                (chansL s ++ chansM rest) :=
              ((perm_shuffle (outChans out1) (outChans out2) (chansL s')
                (chansM m')).subperm).trans (subperm_append hk hrest)
            rw [outChans_append]
            by_cases hse : s'.isEmpty
            · have hnil : chansL s' = [] := by
                cases s' with
                | nil => rfl
                | cons a t => simp [List.isEmpty] at hse
              rw [if_pos hse]
              refine List.Subperm.trans ?_ hres
              refine List.Sublist.subperm ?_
              rw [hnil, List.nil_append]
            · rw [if_neg hse]
              simp only [chansM]
              exact hres

theorem terminateKey_out_subperm (k : String) : ∀ (s : List Listener),
    List.Subperm (outChans (terminateKey k s 0 s.length).2) (chansL s)
  | [] => by simp [terminateKey, outChans]
  | [a] => by
    show List.Subperm (outChans (terminateKey k [a] 0 1).2) (chansL [a])
    have he : terminateKey k [a] 0 1 = (some [a], [(a.channel, termEv k)]) := rfl
    rw [he]
    simp only [outChans, List.map_cons, List.map_nil, chansL]
    exact List.Subperm.refl _
  | a :: b :: t => by
    rw [terminateKey_two]
    simp only [outChans, List.map_cons, List.map_nil, chansL]
    exact (List.Sublist.cons₂ a.channel (List.nil_sublist _)).subperm

theorem terminate_out_subperm : ∀ (m : LMap),
    List.Subperm (outChans (terminate m).2) (chansM m)
  | [] => by simp [terminate, outChans, chansM]
  | (k, s) :: rest => by
    have hk := terminateKey_out_subperm k s
    have hrest := terminate_out_subperm rest
    simp only [terminate]
    cases h1 : terminateKey k s 0 s.length with
    | mk r1 out1 =>
      rw [h1] at hk
      cases r1 with
      | none =>
        simp only [chansM]
        exact hk.trans (List.sublist_append_left (chansL s) (chansM rest)).subperm
      | some s' =>
        cases h2 : terminate rest with
        | mk r2 out2 =>
          rw [h2] at hrest
          cases r2 with
          | none =>
            simp only [chansM]
            rw [outChans_append]
            exact subperm_append hk hrest
          | some m' =>
            simp only [chansM]
            rw [outChans_append]
            exact subperm_append hk hrest

/-! ## Step characterization lemmas -/

theorem step_wait_true (s : LoopState) (hT : s.terminated = true)
    (key : String) (ttl now : Nat) :
    step s (Action.wait key ttl now) =
      (some ⟨s.listenerMap, s.terminated, s.defaultTTL, s.regQueue,
        s.eventQueue, s.nextChan + 1⟩, [(s.nextChan, termEv key)]) := by
  simp [step, hT]

theorem step_wait_false (s : LoopState) (hT : s.terminated = false)
    (key : String) (ttl now : Nat) :
    step s (Action.wait key ttl now) =
      (some ⟨s.listenerMap, s.terminated, s.defaultTTL,
        s.regQueue ++ [⟨key, s.nextChan, now + s.defaultTTL⟩],
        s.eventQueue, s.nextChan + 1⟩, []) := by
  simp [step, hT]

theorem step_send_true (s : LoopState) (hT : s.terminated = true)
    (e : Event) : step s (Action.send e) = (some s, []) := by
  simp [step, hT]

theorem step_send_false (s : LoopState) (hT : s.terminated = false)
    (e : Event) :
    step s (Action.send e) =
      (some ⟨s.listenerMap, s.terminated, s.defaultTTL, s.regQueue,
        s.eventQueue ++ [e], s.nextChan⟩, []) := by
  simp [step, hT]

theorem step_register_true (s : LoopState) (hT : s.terminated = true) :
    step s Action.register = (some s, []) := by
  simp [step, hT]

theorem step_register_nil (s : LoopState) (hT : s.terminated = false)
    (hq : s.regQueue = []) : step s Action.register = (some s, []) := by
  simp [step, hT, hq]

theorem step_register_cons (s : LoopState) (hT : s.terminated = false)
    (lis : Listener) (rest : List Listener) (hq : s.regQueue = lis :: rest) :
    step s Action.register =
      (some ⟨registerListener s.listenerMap lis, s.terminated, s.defaultTTL,
        rest, s.eventQueue, s.nextChan⟩, []) := by
  simp [step, hT, hq]

theorem step_dispatch_true (s : LoopState) (hT : s.terminated = true)
    (now : Nat) : step s (Action.dispatch now) = (some s, []) := by
  simp [step, hT]

theorem step_dispatch_nil (s : LoopState) (hT : s.terminated = false)
    (now : Nat) (hq : s.eventQueue = []) :
    step s (Action.dispatch now) = (some s, []) := by
  simp [step, hT, hq]

theorem step_dispatch_cons (s : LoopState) (hT : s.terminated = false)
    (now : Nat) (e : Event) (rest : List Event)
    (hq : s.eventQueue = e :: rest) :
    step s (Action.dispatch now) =
      (some ⟨(processEvent s.listenerMap now e).1, s.terminated,
        s.defaultTTL, s.regQueue, rest, s.nextChan⟩,
        (processEvent s.listenerMap now e).2) := by
  simp [step, hT, hq]

theorem step_sweep_true (s : LoopState) (hT : s.terminated = true)
    (now : Nat) : step s (Action.sweep now) = (some s, []) := by
  simp [step, hT]

theorem step_sweep_none (s : LoopState) (hT : s.terminated = false)
    (now : Nat) (out : List Delivery)
    (hc : cleanup now s.listenerMap = (none, out)) :
    step s (Action.sweep now) = (none, out) := by
  simp [step, hT, hc]

theorem step_sweep_some (s : LoopState) (hT : s.terminated = false)
    (now : Nat) (m' : LMap) (out : List Delivery)
    (hc : cleanup now s.listenerMap = (some m', out)) :
    step s (Action.sweep now) =
      (some ⟨m', s.terminated, s.defaultTTL, s.regQueue, s.eventQueue,
        s.nextChan⟩, out) := by
  simp [step, hT, hc]

theorem step_terminate_true (s : LoopState) (hT : s.terminated = true) :
    step s Action.terminate = (some s, []) := by
  simp [step, hT]

theorem step_terminate_none (s : LoopState) (hT : s.terminated = false)
    (out : List Delivery) (hc : terminate s.listenerMap = (none, out)) :
    step s Action.terminate = (none, out) := by
  simp [step, hT, hc]

theorem step_terminate_some (s : LoopState) (hT : s.terminated = false)
    (m' : LMap) (out : List Delivery)
    (hc : terminate s.listenerMap = (some m', out)) :
    step s Action.terminate =
      (some ⟨m', true, s.defaultTTL, s.regQueue, s.eventQueue,
        s.nextChan⟩, out) := by
  simp [step, hT, hc]

/-! ## The at-most-once-delivery invariant -/

/-- The channels already written are distinct and below the allocator;
while the loop is live, the pending channels (map plus registration
queue) are distinct, below the allocator, and unwritten. -/
structure Inv (s : LoopState) (written : List Nat) : Prop where
  wNodup : written.Nodup
  wLt : ∀ c ∈ written, c < s.nextChan
  live : s.terminated = false →
    (allChans s).Nodup ∧ (∀ c ∈ allChans s, c < s.nextChan) ∧
    (∀ c ∈ allChans s, c ∉ written)

theorem live_perm {A B written : List Nat} {n : Nat}
    (hperm : List.Perm B A)
    (h : B.Nodup ∧ (∀ c ∈ B, c < n) ∧ (∀ c ∈ B, c ∉ written)) :
    A.Nodup ∧ (∀ c ∈ A, c < n) ∧ (∀ c ∈ A, c ∉ written) :=
  ⟨h.1.perm hperm, fun c hc => h.2.1 c (hperm.mem_iff.mpr hc),
    fun c hc => h.2.2 c (hperm.mem_iff.mpr hc)⟩

/-- The common accounting step: if the channels written by a step plus
the remaining pending channels form a sub-multiset of the previously
pending channels, every invariant obligation follows. -/
theorem accounting {out pnew pold written : List Nat} {n : Nat}
    (hsub : List.Subperm (out ++ pnew) pold)
    (hP : pold.Nodup) (hPlt : ∀ c ∈ pold, c < n)
    (hPw : ∀ c ∈ pold, c ∉ written)
    (hw : written.Nodup) (hwlt : ∀ c ∈ written, c < n) :
    out.Nodup ∧ (∀ c ∈ out, c ∉ written) ∧
    (written ++ out).Nodup ∧ (∀ c ∈ written ++ out, c < n) ∧
    pnew.Nodup ∧ (∀ c ∈ pnew, c < n) ∧
    (∀ c ∈ pnew, c ∉ written ++ out) := by
  have hnd : (out ++ pnew).Nodup := subperm_nodup hsub hP
  have hss := hsub.subset
  have hout : ∀ c ∈ out, c ∈ pold :=
    fun c hc => hss (List.mem_append.mpr (Or.inl hc))
  have hpn : ∀ c ∈ pnew, c ∈ pold :=
    fun c hc => hss (List.mem_append.mpr (Or.inr hc))
  obtain ⟨hondup, hpnd, hdj⟩ := List.nodup_append.mp hnd
  refine ⟨hondup, fun c hc => hPw c (hout c hc), ?_, ?_, hpnd,
    fun c hc => hPlt c (hpn c hc), ?_⟩
  · exact List.Nodup.append hw hondup
      (fun c hcw hco => hPw c (hout c hco) hcw)
  · intro c hc
    rcases List.mem_append.mp hc with h | h
    · exact hwlt c h
    · exact hPlt c (hout c h)
  · intro c hc hmem
    rcases List.mem_append.mp hmem with h | h
    · exact hPw c (hpn c hc) h
    · exact hdj h hc

theorem step_inv (s : LoopState) (written : List Nat) (a : Action)
    (hI : Inv s written) :
    (outChans (step s a).2).Nodup ∧
    (∀ c ∈ outChans (step s a).2, c ∉ written) ∧
    (∀ s', (step s a).1 = some s' →
      Inv s' (written ++ outChans (step s a).2)) := by
  cases a with
  | wait key ttl now =>
    cases hT : s.terminated with
    | true =>
      rw [step_wait_true s hT key ttl now]
      refine ⟨by simp [outChans], ?_, ?_⟩
      · intro c hc
        simp only [outChans, List.map_cons, List.map_nil,
          List.mem_singleton] at hc
        subst hc
        intro hmem
        exact absurd (hI.wLt _ hmem) (lt_irrefl _)
      · intro s' hs'
        injection hs' with hs'
        subst hs'
        refine ⟨?_, ?_, ?_⟩
        · refine List.Nodup.append hI.wNodup (by simp [outChans]) ?_
          intro c hcw hcn
          simp only [outChans, List.map_cons, List.map_nil,
            List.mem_singleton] at hcn
          subst hcn
          exact absurd (hI.wLt _ hcw) (lt_irrefl _)
        · intro c hc
          rcases List.mem_append.mp hc with h | h
          · exact Nat.lt_succ_of_lt (hI.wLt _ h)
          · simp only [outChans, List.map_cons, List.map_nil,
              List.mem_singleton] at h
            subst h
            exact Nat.lt_succ_self _
        · intro h
          rw [hT] at h
          cases h
    | false =>
      rw [step_wait_false s hT key ttl now]
      refine ⟨by simp [outChans], by simp [outChans], ?_⟩
      intro s' hs'
      injection hs' with hs'
      subst hs'
      simp only [outChans, List.map_nil, List.append_nil]
      obtain ⟨hnd, hlt, hdw⟩ := hI.live hT
      refine ⟨hI.wNodup, fun c hc => Nat.lt_succ_of_lt (hI.wLt _ hc), ?_⟩
      intro _
      have hA : allChans ⟨s.listenerMap, s.terminated, s.defaultTTL,
          s.regQueue ++ [⟨key, s.nextChan, now + s.defaultTTL⟩],
          s.eventQueue, s.nextChan + 1⟩ = allChans s ++ [s.nextChan] := by
        simp [allChans, chansL]
      rw [hA]
      refine ⟨?_, ?_, ?_⟩
      · refine List.Nodup.append hnd (by simp) ?_
        intro c hc hcn
        rw [List.mem_singleton] at hcn
        subst hcn
        exact absurd (hlt _ hc) (lt_irrefl _)
      · intro c hc
        rcases List.mem_append.mp hc with h | h
        · exact Nat.lt_succ_of_lt (hlt _ h)
        · rw [List.mem_singleton] at h
          subst h
          exact Nat.lt_succ_self _
      · intro c hc
        rcases List.mem_append.mp hc with h | h
        · exact hdw _ h
        · rw [List.mem_singleton] at h
          subst h
          intro hmem
          exact absurd (hI.wLt _ hmem) (lt_irrefl _)
  | send e =>
    cases hT : s.terminated with
    | true =>
      rw [step_send_true s hT e]
      refine ⟨by simp [outChans], by simp [outChans], ?_⟩
      intro s' hs'
      injection hs' with hs'
      subst hs'
      simp only [outChans, List.map_nil, List.append_nil]
      exact hI
    | false =>
      rw [step_send_false s hT e]
      refine ⟨by simp [outChans], by simp [outChans], ?_⟩
      intro s' hs'
      injection hs' with hs'
      subst hs'
      simp only [outChans, List.map_nil, List.append_nil]
      exact ⟨hI.wNodup, hI.wLt, hI.live⟩
  | register =>
    cases hT : s.terminated with
    | true =>
      rw [step_register_true s hT]
      refine ⟨by simp [outChans], by simp [outChans], ?_⟩
      intro s' hs'
      injection hs' with hs'
      subst hs'
      simp only [outChans, List.map_nil, List.append_nil]
      exact hI
    | false =>
      cases hq : s.regQueue with
      | nil =>
        rw [step_register_nil s hT hq]
        refine ⟨by simp [outChans], by simp [outChans], ?_⟩
        intro s' hs'
        injection hs' with hs'
        subst hs'
        simp only [outChans, List.map_nil, List.append_nil]
        exact hI
      | cons lis rest =>
        rw [step_register_cons s hT lis rest hq]
        refine ⟨by simp [outChans], by simp [outChans], ?_⟩
        intro s' hs'
        injection hs' with hs'
        subst hs'
        simp only [outChans, List.map_nil, List.append_nil]
        obtain ⟨hnd, hlt, hdw⟩ := hI.live hT
        refine ⟨hI.wNodup, hI.wLt, ?_⟩
        intro _
        refine live_perm ?_ ⟨hnd, hlt, hdw⟩
        simp only [allChans, hq, chansL, List.map_cons]
        refine List.Perm.trans ?_
          ((chansM_registerListener s.listenerMap lis).append_right _).symm
        rw [List.append_assoc, List.singleton_append]
  | dispatch now =>
    cases hT : s.terminated with
    | true =>
      rw [step_dispatch_true s hT now]
      refine ⟨by simp [outChans], by simp [outChans], ?_⟩
      intro s' hs'
      injection hs' with hs'
      subst hs'
      simp only [outChans, List.map_nil, List.append_nil]
      exact hI
    | false =>
      cases hq : s.eventQueue with
      | nil =>
        rw [step_dispatch_nil s hT now hq]
        refine ⟨by simp [outChans], by simp [outChans], ?_⟩
        intro s' hs'
        injection hs' with hs'
        subst hs'
        simp only [outChans, List.map_nil, List.append_nil]
        exact hI
      | cons e rest =>
        rw [step_dispatch_cons s hT now e rest hq]
        obtain ⟨hnd, hlt, hdw⟩ := hI.live hT
        have hsub : List.Subperm
            (outChans (processEvent s.listenerMap now e).2 ++
              (chansM (processEvent s.listenerMap now e).1 ++
                chansL s.regQueue)) (allChans s) := by
          have h := subperm_append (processEvent_subperm s.listenerMap now e)
            (List.Subperm.refl (chansL s.regQueue))
          rw [List.append_assoc] at h
          exact h
        obtain ⟨h1, h2, h3, h4, h5, h6, h7⟩ :=
          accounting hsub hnd hlt hdw hI.wNodup hI.wLt
        refine ⟨h1, h2, ?_⟩
        intro s' hs'
        injection hs' with hs'
        subst hs'
        refine ⟨h3, h4, ?_⟩
        intro _
        exact ⟨h5, h6, h7⟩
  | sweep now =>
    cases hT : s.terminated with
    | true =>
      rw [step_sweep_true s hT now]
      refine ⟨by simp [outChans], by simp [outChans], ?_⟩
      intro s' hs'
      injection hs' with hs'
      subst hs'
      simp only [outChans, List.map_nil, List.append_nil]
      exact hI
    | false =>
      obtain ⟨hnd, hlt, hdw⟩ := hI.live hT
      have hcs := cleanup_subperm now s.listenerMap
      cases hc : cleanup now s.listenerMap with
      | mk r out =>
        rw [hc] at hcs
        cases r with
        | none =>
          rw [step_sweep_none s hT now out hc]
          simp only [optChansM, List.append_nil] at hcs
          have hsub : List.Subperm (outChans out ++ ([] : List Nat))
              (allChans s) := by
            rw [List.append_nil]
            exact hcs.trans
              (List.sublist_append_left (chansM s.listenerMap)
                (chansL s.regQueue)).subperm
          obtain ⟨h1, h2, _, _, _, _, _⟩ :=
            accounting hsub hnd hlt hdw hI.wNodup hI.wLt
          exact ⟨h1, h2, fun s' hs' => nomatch hs'⟩
        | some m' =>
          rw [step_sweep_some s hT now m' out hc]
          simp only [optChansM] at hcs
          have hsub : List.Subperm
              (outChans out ++ (chansM m' ++ chansL s.regQueue))
              (allChans s) := by
            have h := subperm_append hcs
              (List.Subperm.refl (chansL s.regQueue))
            rw [List.append_assoc] at h
            exact h
          obtain ⟨h1, h2, h3, h4, h5, h6, h7⟩ :=
            accounting hsub hnd hlt hdw hI.wNodup hI.wLt
          refine ⟨h1, h2, ?_⟩
          intro s' hs'
          injection hs' with hs'
          subst hs'
          refine ⟨h3, h4, ?_⟩
          intro _
          exact ⟨h5, h6, h7⟩
  | terminate =>
    cases hT : s.terminated with
    | true =>
      rw [step_terminate_true s hT]
      refine ⟨by simp [outChans], by simp [outChans], ?_⟩
      intro s' hs'
      injection hs' with hs'
      subst hs'
      simp only [outChans, List.map_nil, List.append_nil]
      exact hI
    | false =>
      obtain ⟨hnd, hlt, hdw⟩ := hI.live hT
      have hts := terminate_out_subperm s.listenerMap
      cases hc : terminate s.listenerMap with
      | mk r out =>
        rw [hc] at hts
        have hsub : List.Subperm (outChans out ++ ([] : List Nat))
            (allChans s) := by
          rw [List.append_nil]
          exact hts.trans
            (List.sublist_append_left (chansM s.listenerMap)
              (chansL s.regQueue)).subperm
        obtain ⟨h1, h2, h3, h4, _, _, _⟩ :=
          accounting hsub hnd hlt hdw hI.wNodup hI.wLt
        cases r with
        | none =>
          rw [step_terminate_none s hT out hc]
          exact ⟨h1, h2, fun s' hs' => nomatch hs'⟩
        | some m' =>
          rw [step_terminate_some s hT m' out hc]
          refine ⟨h1, h2, ?_⟩
          intro s' hs'
          injection hs' with hs'
          subst hs'
          refine ⟨h3, h4, ?_⟩
          intro h
          cases h

theorem run_nodup : ∀ (acts : List Action) (s : LoopState)
    (written : List Nat), Inv s written →
    (written ++ outChans (run s acts).2).Nodup
  | [], _, written, hI => by
    simp only [run, outChans, List.map_nil, List.append_nil]
    exact hI.wNodup
  | a :: rest, s, written, hI => by
    obtain ⟨h1, h2, h3⟩ := step_inv s written a hI
    cases hs : step s a with
    | mk r out =>
      rw [hs] at h1 h2 h3
      cases r with
      | none =>
        simp only [run, hs]
        exact List.Nodup.append hI.wNodup h1
          (fun c hcw hco => h2 c hco hcw)
      | some s' =>
        have ih := run_nodup rest s' (written ++ outChans out) (h3 s' rfl)
        simp only [run, hs]
        rw [outChans_append, ← List.append_assoc]
        exact ih

/-- Claim C5, amended.  At-most-once delivery holds for every sequence
of operations from a fresh loop: the delivery log never writes any
channel twice (the list of written channels has no duplicate).  The
mechanism stated by the claim — that every delivering step also removes
the listener from the mapping — is false (see the counterexample: the
termination flush delivers and leaves the listener in place); the
at-most-once property survives because the loop processes nothing
further once terminated. -/
theorem at_most_once_delivery (ttl : Nat) (acts : List Action) :
    (((run (initState ttl) acts).2).map Prod.fst).Nodup := by
  have hI : Inv (initState ttl) [] := by
    refine ⟨List.nodup_nil, by simp, ?_⟩
    intro _
    refine ⟨?_, ?_, ?_⟩ <;> simp [allChans, chansM, chansL, initState]
  have h := run_nodup acts (initState ttl) [] hI
  simpa [outChans] using h

end Waitloop
